import Mathlib

/-!
Verification development for the seqLogo repository (position-matrix engine).

The definitions below are a shallow embedding of `src/seqlogo/core.py` (and the
legacy `src/seqLogo/core.py` where a claim refers to it).  Matrices are lists of
rows of real numbers; the floating-point arithmetic of numpy is idealised as
real arithmetic, with `Real.logb 2` for `np.log2` and real exponentiation for
`np.power(2, ·)`.  Fallible code paths (shape checks, normalization checks,
background resolution) are embedded as `Except`-returning functions, and the
sequential field mutation of `CompletePM._update_pm` is embedded as explicit
state passing that stops at the first raised error while keeping every
assignment already performed, exactly as Python attribute mutation does.
-/

noncomputable section

namespace SeqLogo

/-- A position matrix: a list of rows, each row listing one real value per
alphabet symbol (column), mirroring the `pandas.DataFrame` tables of the code. -/
abbrev Mat := List (List ℝ)

/-- Row count of a table, `pm.shape[0]`. -/
def rowsOf (m : Mat) : Nat := m.length

/-- Column count of a table, `pm.shape[1]` (tables are rectangular, so the head
row's length is the column count). -/
def colsOf (m : Mat) : Nat := (m.headD []).length

/-- The closed set of alphabet-type tags of `seqlogo.core` (docstring of
`_init_pm`). -/
inductive AlphabetType
  | DNA | reducedDNA | ambigDNA
  | RNA | reducedRNA | ambigRNA
  | AA | reducedAA | ambigAA
  | custom
deriving DecidableEq

/-- Modelled from the spec: the `utils._IDX_LETTERS` registry, whose module is
not under `src/`; the symbol strings are the ones listed in the docstring of
`seqlogo.core._init_pm` ("DNA" := "ACGT", "reduced DNA" := "ACGTN-", and so
on).  `custom` has no registry entry (the caller supplies its symbols). -/
def IDX_LETTERS : AlphabetType → List Char
  | .DNA => "ACGT".toList
  | .reducedDNA => "ACGTN-".toList
  | .ambigDNA => "ACGTRYSWKMBDHVN-".toList
  | .RNA => "ACGU".toList
  | .reducedRNA => "ACGUN-".toList
  | .ambigRNA => "ACGURYSWKMBDHVN-".toList
  | .AA => "ACDEFGHIKLMNPQRSTVWY".toList
  | .reducedAA => "ACDEFGHIKLMNPQRSTVWYX*-".toList
  | .ambigAA => "ACDEFGHIKLMNOPQRSTUVWYBJZX*-".toList
  | .custom => []

/-- Modelled from the spec: `utils._NA_ALPHABETS`, the nucleic-acid tags. -/
def NA_ALPHABETS : List AlphabetType :=
  [.DNA, .reducedDNA, .ambigDNA, .RNA, .reducedRNA, .ambigRNA]

/-- Modelled from the spec: `utils._AA_ALPHABETS`, the amino-acid tags. -/
def AA_ALPHABETS : List AlphabetType := [.AA, .reducedAA, .ambigAA]

/-- The ordered symbols in effect: the registry entry for a built-in tag, or the
caller-supplied symbols for `custom` (mirrors the `alphabet_type != 'custom'`
branches of `_init_pm`). -/
def alphabetOfType (atype : AlphabetType) (alphabet : Option (List Char)) : List Char :=
  if atype = .custom then alphabet.getD [] else IDX_LETTERS atype

/-- The kind tag of a submitted matrix (`pm_type` strings of the code). -/
inductive PmType
  | pfm | ppm | pwm | pm
deriving DecidableEq

/-- Error outcomes of the engine (abstract counterparts of the raised
`ValueError`s / `TypeError`s). -/
inductive Err
  | shapeErr (expected : Nat)
  | normErr
  | configErr (atype : AlphabetType)
  | typeErr
deriving DecidableEq

/-- The row-sum acceptance test of `_init_pm` for probability matrices:
`np.allclose(pm.sum(axis=1), 1, 1e-10)`.  The third positional argument of
`np.allclose` is `rtol`, and `atol` keeps its numpy default `1e-8`, so a row
sum `s` is accepted iff `|s - 1| ≤ 1e-8 + 1e-10 * |1|`. -/
abbrev allcloseOne (m : Mat) : Prop :=
  ∀ row ∈ m, |row.sum - 1| ≤ 1e-8 + 1e-10

/-- Embedding of `seqlogo.core._init_pm` on an in-memory table: orient the
table against the chosen alphabet (accept when the column count matches,
transpose when the row count matches, otherwise raise naming the expected
length), then run the probability normalization check when the kind is `ppm`.
Every alphabet-type tag lies in `_NA_ALPHABETS ∪ _AA_ALPHABETS ∪ {custom}`, so
the guard on line 60 of the source is always satisfied. -/
def _init_pm (pmIn : Mat) (pm_type : PmType) (alphabet_type : AlphabetType)
    (alphabet : Option (List Char)) : Except Err Mat :=
  let exLen := (alphabetOfType alphabet_type alphabet).length
  let oriented : Except Err Mat :=
    if colsOf pmIn = exLen then .ok pmIn
    else if rowsOf pmIn = exLen then .ok pmIn.transpose
    else .error (.shapeErr exLen)
  match oriented with
  | .error e => .error e
  | .ok m =>
    if pm_type = .ppm then
      if allcloseOne m then .ok m else .error .normErr
    else .ok m

/-- A background model: a single scalar (`numbers.Real`) or a per-symbol vector
(any `Collection`), as accepted by `_check_background`. -/
inductive Background
  | const (c : ℝ)
  | vec (v : List ℝ)

/-- The per-column background values that numpy broadcasting applies to a row
of length `n`: a scalar is used for every column, a vector is used as-is. -/
def bgList (bg : Background) (n : Nat) : List ℝ :=
  match bg with
  | .const c => List.replicate n c
  | .vec v => v

/-- Modelled from the spec: `utils._NA_background`, the built-in nucleic-acid
background — uniform 0.25 for every symbol of the alphabet (the module holding
the concrete table is not under `src/`). -/
def NA_background (alph : List Char) : List ℝ := List.replicate alph.length (1 / 4)

/-- Modelled from the spec: `utils._AA_background`, the built-in amino-acid
background (Robinson-Robinson frequencies).  The spec fixes only that it is a
built-in strictly positive per-symbol distribution; a uniform stand-in is used
because the concrete empirical table lives in the missing `utils` module and no
claim depends on its values. -/
def AA_background (alph : List Char) : List ℝ := List.replicate alph.length (1 / 20)

/-- The first argument of `_check_background`: either a `Pm`-like object
carrying its alphabet type, or a raw table (`pd.DataFrame`), for which the
function's `alphabet_type` parameter keeps its default `"DNA"` at every call
site in the conversions. -/
inductive PmArg
  | pmInst (atype : AlphabetType) (alph : List Char)
  | rawTable

/-- Embedding of `seqlogo.core._check_background`.  A caller-supplied
background — scalar or vector — is returned verbatim with no length check
(lines 544-551 return before the length assertion, which sits on the
default-background path only).  With no background supplied, a `Pm` argument
resolves through its alphabet type to a built-in default or fails naming the
type; a raw table resolves with the defaulted `alphabet_type = "DNA"`. -/
def _check_background (pmArg : PmArg) (background : Option Background) :
    Except Err Background :=
  match background with
  | some b => .ok b
  | none =>
    match pmArg with
    | .pmInst atype alph =>
      if atype ∈ NA_ALPHABETS then .ok (.vec (NA_background alph))
      else if atype ∈ AA_ALPHABETS then .ok (.vec (AA_background alph))
      else .error (.configErr atype)
    | .rawTable => .ok (.vec (NA_background (IDX_LETTERS .DNA)))

/-- `np.log2`, idealised over the reals. -/
def log2 (x : ℝ) : ℝ := Real.logb 2 x

/-- The pseudocount default of the conversions: `1e-10` when `None`. -/
def defaultPc (pc : Option ℝ) : ℝ := pc.getD 1e-10

/-- The cell arithmetic of `ppm2pwm`: `np.log2(ppm + pseudocount) -
np.log2(background)`, broadcast over columns. -/
def ppm2pwmCells (pc : ℝ) (bg : Background) (m : Mat) : Mat :=
  m.map (fun row => List.zipWith (fun v b => log2 (v + pc) - log2 b) row (bgList bg row.length))

/-- Embedding of `seqlogo.core.ppm2pwm`: resolve the background (raw-table call
shape), apply the log-odds cell formula, and pass the result through
`_init_pm` with its defaulted alphabet type `"DNA"`. -/
def ppm2pwm (ppmM : Mat) (background : Option Background) (pseudocount : Option ℝ) :
    Except Err Mat :=
  match _check_background .rawTable background with
  | .error e => .error e
  | .ok bg => _init_pm (ppm2pwmCells (defaultPc pseudocount) bg ppmM) .pwm .DNA none

/-- The cell arithmetic of `pwm2ppm`: `np.power(2, pwm + np.log2(background)) -
pseudocount`, broadcast over columns. -/
def pwm2ppmCells (pc : ℝ) (bg : Background) (m : Mat) : Mat :=
  m.map (fun row =>
    List.zipWith (fun v b => (2 : ℝ) ^ (v + log2 b) - pc) row (bgList bg row.length))

/-- Embedding of `seqlogo.core.pwm2ppm`: resolve the background, invert the
log-odds formula, and pass the result through `_init_pm` as a probability
matrix (so the row-sum check runs), with its defaulted alphabet type `"DNA"`. -/
def pwm2ppm (pwmM : Mat) (background : Option Background) (pseudocount : Option ℝ) :
    Except Err Mat :=
  match _check_background .rawTable background with
  | .error e => .error e
  | .ok bg => _init_pm (pwm2ppmCells (defaultPc pseudocount) bg pwmM) .ppm .DNA none

/-- The cast `.astype(np.int64)` of numpy: truncation toward zero. -/
def astypeInt (v : ℝ) : ℤ := if 0 ≤ v then ⌊v⌋ else ⌈v⌉

/-- The cell arithmetic shared by `ppm2pfm` and the lazy `Pm.counts` attribute:
`(matrix * 100).astype(np.int64)` applied cell-wise. -/
def countsCells (m : Mat) : Mat :=
  m.map (fun row => row.map (fun v => ((astypeInt (v * 100) : ℤ) : ℝ)))

/-- Embedding of `seqlogo.core.ppm2pfm`: scale by 100, cast to integer, wrap in
`_init_pm` as a frequency matrix. -/
def ppm2pfm (ppmM : Mat) : Except Err Mat :=
  _init_pm (countsCells ppmM) .pfm .DNA none

/-- Embedding of the lazy `Pm.counts` computation (line 308 of the source):
`(pm * 100).astype(np.int64)` with no `_init_pm` wrapper. -/
def pmCounts (m : Mat) : Mat := countsCells m

/-- Embedding of `seqlogo.core.pfm2ppm`: `(pfm.T / pfm.sum(axis=1)).T`, i.e.
divide every cell by its row total, wrapped in `_init_pm` as a probability
matrix (so the row-sum check runs). -/
def pfm2ppm (pfmM : Mat) : Except Err Mat :=
  _init_pm (pfmM.map (fun row => row.map (fun v => v / row.sum))) .ppm .DNA none

/-- Embedding of `seqlogo.core.pfm2pwm`: composition through the probability
matrix, with the outer `_init_pm` wrapper of line 665. -/
def pfm2pwm (pfmM : Mat) (background : Option Background) (pseudocount : Option ℝ) :
    Except Err Mat :=
  match pfm2ppm pfmM with
  | .error e => .error e
  | .ok p =>
    match ppm2pwm p background pseudocount with
    | .error e => .error e
    | .ok w => _init_pm w .pwm .DNA none

/-- Embedding of `seqlogo.core.pwm2pfm`: composition through the probability
matrix, with the outer `_init_pm` wrapper of line 679. -/
def pwm2pfm (pwmM : Mat) (background : Option Background) (pseudocount : Option ℝ) :
    Except Err Mat :=
  match pwm2ppm pwmM background pseudocount with
  | .error e => .error e
  | .ok p =>
    match ppm2pfm p with
    | .error e => .error e
    | .ok f => _init_pm f .pfm .DNA none

/-- Index of the first occurrence of a row's maximum, the semantics of
`pandas.DataFrame.idxmax(axis=1)` used by `Pm._generate_consensus`. -/
def idxmax : List ℝ → Nat
  | [] => 0
  | x :: xs => if ∀ y ∈ xs, y ≤ x then 0 else idxmax xs + 1

/-- Embedding of `Pm._generate_consensus`: per row, the alphabet symbol whose
column holds the first maximum. -/
def _generate_consensus (m : Mat) (alph : List Char) : List Char :=
  m.map (fun row => alph.getD (idxmax row) '?')

/-- Embedding of `__proportion` (both `seqlogo/core.py` and the legacy
`seqLogo/core.py` carry the identical function): `p * log2 p` for positive `p`
and exactly `0` otherwise, so the guarded branch never feeds `log2` a
non-positive argument. -/
def __proportion (prob : ℝ) : ℝ :=
  if 0 < prob then prob * Real.logb 2 prob else 0

/-- Embedding of `_row_wise_ic`: `2 + np.sum(__proportion(row), axis=1)`, the
legacy uniform-background information content, one value per row of the
matrix. -/
def _row_wise_ic (m : Mat) : List ℝ :=
  m.map (fun row => 2 + (row.map __proportion).sum)

/-- The observable state of a `CompletePM` instance: the attributes read by
callers (`__init__` initialises each underscore field to `None`). -/
structure CState where
  pfm : Option Mat
  ppm : Option Mat
  pwm : Option Mat
  width : Option Nat
  weight : Option (List ℝ)
  counts : Option Mat
  consensus : Option (List Char)
  background : Option Background
  ic : Option (List ℝ)
  pseudocount : ℝ
  alphabet_type : AlphabetType
  alphabet : Option (List Char)

/-- Sequencing of mutation steps: Python executes the next statement only when
the previous one did not raise, and a raise propagates with the mutations
already performed kept in place. -/
def andThenE (r : CState × Option Err) (f : CState → CState × Option Err) :
    CState × Option Err :=
  match r with
  | (s, none) => f s
  | (s, some e) => (s, some e)

/-- Line 784-788 of `CompletePM._update_pm`: validate and assign a supplied
PFM (supplied matrices are raw tables here, so the `isinstance(pfm, Pm)`
branch does not fire). -/
def stepSetPfm (fIn : Option Mat) (s : CState) : CState × Option Err :=
  match fIn with
  | none => (s, none)
  | some f =>
    match _init_pm f .pfm s.alphabet_type s.alphabet with
    | .ok f' => ({ s with pfm := some f' }, none)
    | .error e => (s, some e)

/-- Line 789-793: validate and assign a supplied PPM. -/
def stepSetPpm (pIn : Option Mat) (s : CState) : CState × Option Err :=
  match pIn with
  | none => (s, none)
  | some p =>
    match _init_pm p .ppm s.alphabet_type s.alphabet with
    | .ok p' => ({ s with ppm := some p' }, none)
    | .error e => (s, some e)

/-- Line 794-798: validate and assign a supplied PWM. -/
def stepSetPwm (wIn : Option Mat) (s : CState) : CState × Option Err :=
  match wIn with
  | none => (s, none)
  | some w =>
    match _init_pm w .pwm s.alphabet_type s.alphabet with
    | .ok w' => ({ s with pwm := some w' }, none)
    | .error e => (s, some e)

/-- Line 801-802: `if pfm is not None and ppm is None: self._ppm =
pfm2ppm(self._pfm)`. -/
def stepFillPpmFromPfm (fIn pIn : Option Mat) (s : CState) : CState × Option Err :=
  if fIn.isSome && pIn.isNone then
    match s.pfm with
    | some f =>
      match pfm2ppm f with
      | .ok p => ({ s with ppm := some p }, none)
      | .error e => (s, some e)
    | none => (s, some .typeErr)
  else (s, none)

/-- Line 804-805: fill the PWM from the PFM. -/
def stepFillPwmFromPfm (fIn wIn : Option Mat) (bgArg : Option Background)
    (pcArg : Option ℝ) (s : CState) : CState × Option Err :=
  if fIn.isSome && wIn.isNone then
    match s.pfm with
    | some f =>
      match pfm2pwm f bgArg pcArg with
      | .ok w => ({ s with pwm := some w }, none)
      | .error e => (s, some e)
    | none => (s, some .typeErr)
  else (s, none)

/-- Line 807-808: fill the PFM from the PPM. -/
def stepFillPfmFromPpm (pIn fIn : Option Mat) (s : CState) : CState × Option Err :=
  if pIn.isSome && fIn.isNone then
    match s.ppm with
    | some p =>
      match ppm2pfm p with
      | .ok f => ({ s with pfm := some f }, none)
      | .error e => (s, some e)
    | none => (s, some .typeErr)
  else (s, none)

/-- Line 810-811: fill the PWM from the PPM. -/
def stepFillPwmFromPpm (pIn wIn : Option Mat) (bgArg : Option Background)
    (pcArg : Option ℝ) (s : CState) : CState × Option Err :=
  if pIn.isSome && wIn.isNone then
    match s.ppm with
    | some p =>
      match ppm2pwm p bgArg pcArg with
      | .ok w => ({ s with pwm := some w }, none)
      | .error e => (s, some e)
    | none => (s, some .typeErr)
  else (s, none)

/-- Line 813-814: fill the PFM from the PWM. -/
def stepFillPfmFromPwm (wIn fIn : Option Mat) (bgArg : Option Background)
    (pcArg : Option ℝ) (s : CState) : CState × Option Err :=
  if wIn.isSome && fIn.isNone then
    match s.pwm with
    | some w =>
      match pwm2pfm w bgArg pcArg with
      | .ok f => ({ s with pfm := some f }, none)
      | .error e => (s, some e)
    | none => (s, some .typeErr)
  else (s, none)

/-- Line 816-817: fill the PPM from the PWM. -/
def stepFillPpmFromPwm (wIn pIn : Option Mat) (bgArg : Option Background)
    (pcArg : Option ℝ) (s : CState) : CState × Option Err :=
  if wIn.isSome && pIn.isNone then
    match s.pwm with
    | some w =>
      match pwm2ppm w bgArg pcArg with
      | .ok p => ({ s with ppm := some p }, none)
      | .error e => (s, some e)
    | none => (s, some .typeErr)
  else (s, none)

/-- The standard ungapped alphabet-type tags of the weight branch on line 823:
`self._alphabet_type not in ("DNA", "RNA", "AA")`. -/
def stdTypes : List AlphabetType := [.DNA, .RNA, .AA]

/-- Per-row dot product `(self.ppm * self.pwm).sum(axis=1)` of line 830: entry
`i` is the sum over the columns `k` of `ppm[i,k] * pwm[i,k]`. -/
def rowDots (p w : Mat) : List ℝ :=
  List.zipWith (fun pr wr => (List.zipWith (fun a b => a * b) pr wr).sum) p w

/-- Lines 819-831 of `CompletePM._update_pm`, executed after the fills: width
from the canonical matrix (`_get_pm` resolves to the default `'ppm'`), the
pseudocount length check (a no-op for the scalar pseudocounts modelled here),
the positional weight, `self._counts = self.pfm`, the consensus, the
recomputed `self.background = _check_background(self)` (called with its
`background` parameter defaulted to `None`, so it always resolves the built-in
default), the information content `(self.ppm * self.pwm).sum(axis=1)`, and the
discarded-but-raising expression `pwm2ppm(self.pwm, background=self.background,
pseudocount=self.pseudocount)` of line 831.

For a non-standard (gapped) alphabet type, line 824 evaluates
`self._get_pm[:,:-1].sum(axis=1) / self._get_pm.sum(axis=1)`.  `self._get_pm`
is a `pandas.DataFrame` (everything flows through `_init_pm`, which wraps in
`pd.DataFrame`), and a DataFrame does not support the 2-D positional slice
`df[:, :-1]`: the expression raises before anything is assigned, so the
gapped branch terminates with an error, width already set (line 819) and the
weight left untouched. -/
def finalize (s : CState) : CState × Option Err :=
  match s.ppm with
  | none => (s, some .typeErr)
  | some canon =>
    let s1 := { s with width := some canon.length }
    if s1.alphabet_type ∈ stdTypes then
      let s2 := { s1 with weight := some (List.replicate canon.length (1 : ℝ)) }
      let s3 := { s2 with counts := s2.pfm }
      let cons := _generate_consensus canon (alphabetOfType s3.alphabet_type s3.alphabet)
      let s4 := { s3 with consensus := some cons }
      match _check_background
          (.pmInst s4.alphabet_type (alphabetOfType s4.alphabet_type s4.alphabet)) none with
      | .error e => (s4, some e)
      | .ok bg' =>
        let s5 := { s4 with background := some bg' }
        let s6 := { s5 with ic := some (rowDots (s5.ppm.getD []) (s5.pwm.getD [])) }
        match s6.pwm with
        | none => (s6, some .typeErr)
        | some wM =>
          match pwm2ppm wM (some bg') (some s6.pseudocount) with
          | .error e => (s6, some e)
          | .ok _ => (s6, none)
    else
      (s1, some .typeErr)

/-- Lines 784-817 of `CompletePM._update_pm`: the validation assignments and
the six gap fills, in source order. -/
def preSteps (s : CState) (fIn pIn wIn : Option Mat) (bgArg : Option Background)
    (pcArg : Option ℝ) : CState × Option Err :=
  andThenE (andThenE (andThenE (andThenE (andThenE (andThenE (andThenE (andThenE
    (stepSetPfm fIn s)
    (stepSetPpm pIn))
    (stepSetPwm wIn))
    (stepFillPpmFromPfm fIn pIn))
    (stepFillPwmFromPfm fIn wIn bgArg pcArg))
    (stepFillPfmFromPpm pIn fIn))
    (stepFillPwmFromPpm pIn wIn bgArg pcArg))
    (stepFillPfmFromPwm wIn fIn bgArg pcArg))
    (stepFillPpmFromPwm wIn pIn bgArg pcArg)

/-- Embedding of `CompletePM._update_pm`: the reconciliation transition.  The
returned state is the object's attribute state when the call returns or
raises; the second component is the raised error, if any. -/
def completeUpdatePm (s : CState) (fIn pIn wIn : Option Mat)
    (bgArg : Option Background) (pcArg : Option ℝ) : CState × Option Err :=
  andThenE (preSteps s fIn pIn wIn bgArg pcArg) finalize

/-- Modelled from the spec's words for the C4 comparison: the claimed
`round(value × 100)` conversion. -/
def ppm2pfmRoundSpec (m : Mat) : Mat :=
  m.map (fun row => row.map (fun v => ((round (v * 100) : ℤ) : ℝ)))

/-- The round trip of claim C2: convert a probability matrix to a weight
matrix and back, with the same background and pseudocount. -/
def roundTrip (p : Mat) (bg : Option Background) (pc : Option ℝ) : Except Err Mat :=
  match ppm2pwm p bg pc with
  | .error e => .error e
  | .ok w => pwm2ppm w bg pc

/-- Strict positivity of a background model against a 4-column table: a
positive scalar, or a positive vector of the matching length 4. -/
def BgOk : Background → Prop
  | .const c => 0 < c
  | .vec v => v.length = 4 ∧ ∀ x ∈ v, 0 < x

/-- A freshly constructed `CompletePM` state over the DNA alphabet with the
default pseudocount, before any matrix is supplied (every attribute `None`). -/
def cState0 : CState :=
  { pfm := none, ppm := none, pwm := none, width := none, weight := none,
    counts := none, consensus := none, background := none, ic := none,
    pseudocount := 1e-10, alphabet_type := .DNA, alphabet := none }

/-- Concrete frequency matrix for the reconciliation runs. -/
def cPfm : Mat := [[25, 25, 25, 25]]

/-- Concrete probability matrix for the reconciliation runs. -/
def cPpm : Mat := [[1 / 4, 1 / 4, 1 / 4, 1 / 4]]

/-- Concrete weight matrix for the reconciliation runs. -/
def cPwm : Mat := [[0, 0, 0, 0]]

/-- The background that `_check_background` resolves for a DNA `Pm` with no
supplied background. -/
def cBg : Background := .vec (NA_background (IDX_LETTERS .DNA))

/-- The intermediate state after the validation assignments of the three
supplied matrices, before `finalize`. -/
def cMid : CState :=
  { pfm := some cPfm, ppm := some cPpm, pwm := some cPwm, width := none,
    weight := none, counts := none, consensus := none, background := none,
    ic := none, pseudocount := 1e-10, alphabet_type := .DNA, alphabet := none }

/-- The fully reconciled state produced by supplying `cPfm`, `cPpm` and `cPwm`
to a fresh DNA `CompletePM`. -/
def cFinal : CState :=
  { pfm := some cPfm, ppm := some cPpm, pwm := some cPwm, width := some 1,
    weight := some [1], counts := some cPfm, consensus := some ['A'],
    background := some cBg, ic := some (rowDots cPpm cPwm),
    pseudocount := 1e-10, alphabet_type := .DNA, alphabet := none }

/-- A valid 2-by-20 amino-acid probability matrix: two uniform rows. -/
def P20 : Mat := List.replicate 2 (List.replicate 20 ((1 : ℝ) / 20))

/-- A fresh `CompletePM` state over the gapped "reduced DNA" alphabet
(ACGTN-), default pseudocount, nothing supplied yet. -/
def gState0 : CState :=
  { pfm := none, ppm := none, pwm := none, width := none, weight := none,
    counts := none, consensus := none, background := none, ic := none,
    pseudocount := 1e-10, alphabet_type := .reducedDNA, alphabet := none }

/-- Concrete 1-by-6 frequency matrix over the reduced DNA alphabet. -/
def gPfm : Mat := [[1, 1, 1, 1, 2, 2]]

/-- Concrete valid 1-by-6 probability matrix over the reduced DNA alphabet
(row sums to 1). -/
def gPpm : Mat := [[1 / 8, 1 / 8, 1 / 8, 1 / 8, 1 / 4, 1 / 4]]

/-- Concrete 1-by-6 weight matrix over the reduced DNA alphabet. -/
def gPwm : Mat := [[0, 0, 0, 0, 0, 0]]

/-- The state after the validation assignments of the three supplied gapped
matrices, before `finalize`. -/
def gMid : CState :=
  { pfm := some gPfm, ppm := some gPpm, pwm := some gPwm, width := none,
    weight := none, counts := none, consensus := none, background := none,
    ic := none, pseudocount := 1e-10, alphabet_type := .reducedDNA, alphabet := none }

/-- The state in which the gapped reconciliation raises: width assigned by
line 819, then the pandas 2-D slice of line 824 raises before the weight is
assigned. -/
def gFail : CState :=
  { pfm := some gPfm, ppm := some gPpm, pwm := some gPwm, width := some 1,
    weight := none, counts := none, consensus := none, background := none,
    ic := none, pseudocount := 1e-10, alphabet_type := .reducedDNA, alphabet := none }

/-! Helper lemmas about the embedding. -/

theorem andThenE_ok {r : CState × Option Err} {f : CState → CState × Option Err}
    {t : CState} (h : andThenE r f = (t, none)) :
    ∃ s1, r = (s1, none) ∧ f s1 = (t, none) := by
  obtain ⟨s, o⟩ := r
  cases o with
  | none => exact ⟨s, rfl, h⟩
  | some e => simp [andThenE] at h

/-- A successful pass through `finalize` pins down every derived attribute of
the resulting state in terms of the canonical (probability) matrix and the
weight matrix of the incoming state; in particular it only succeeds for the
standard ungapped alphabet types (the gapped branch raises on the pandas 2-D
slice of line 824). -/
theorem finalize_ok {s t : CState} (h : finalize s = (t, none)) :
    ∃ canon wM bg,
      s.ppm = some canon ∧ s.pwm = some wM ∧
      t.ppm = some canon ∧ t.pwm = some wM ∧
      t.ic = some (rowDots canon wM) ∧
      t.width = some canon.length ∧
      s.alphabet_type ∈ stdTypes ∧
      t.weight = some (List.replicate canon.length (1 : ℝ)) ∧
      t.alphabet_type = s.alphabet_type ∧
      t.counts = s.pfm ∧
      t.background = some bg := by
  unfold finalize at h
  cases hps : s.ppm with
  | none => rw [hps] at h; simp at h
  | some canon =>
    rw [hps] at h
    simp only [] at h
    by_cases hmem : s.alphabet_type ∈ stdTypes
    · rw [if_pos hmem] at h
      cases hcb : _check_background
          (.pmInst s.alphabet_type (alphabetOfType s.alphabet_type s.alphabet)) none with
      | error e => rw [hcb] at h; simp at h
      | ok bg =>
        rw [hcb] at h
        cases hpw : s.pwm with
        | none => simp [hpw] at h
        | some wM =>
          simp only [hpw] at h
          cases hconv : pwm2ppm wM (some bg) (some s.pseudocount) with
          | error e => rw [hconv] at h; simp at h
          | ok q =>
            rw [hconv] at h
            simp only [Prod.mk.injEq] at h
            obtain ⟨ht, -⟩ := h
            subst ht
            refine ⟨canon, wM, bg, ?_, ?_, ?_, ?_, ?_, ?_, ?_, ?_, ?_, ?_, ?_⟩ <;>
              simp [hps, hpw, hmem]
    · rw [if_neg hmem] at h
      simp at h

theorem sum_map_div (l : List ℝ) (c : ℝ) :
    (l.map (fun v => v / c)).sum = l.sum / c := by
  induction l with
  | nil => simp
  | cons a t ih => simp [ih, add_div]

theorem zipWith_replicate_right (f : ℝ → ℝ → ℝ) (l : List ℝ) (b : ℝ) :
    List.zipWith f l (List.replicate l.length b) = l.map (fun a => f a b) := by
  induction l with
  | nil => simp
  | cons a t ih => simp [List.replicate_succ, ih]

theorem zipWith_zipWith_same (g f : ℝ → ℝ → ℝ) (l b : List ℝ) :
    List.zipWith g (List.zipWith f l b) b =
      List.zipWith (fun a x => g (f a x) x) l b := by
  induction l generalizing b with
  | nil => simp
  | cons a t ih =>
    cases b with
    | nil => simp
    | cons x bs => simp [ih]

theorem zipWith_congr_mem (f g : ℝ → ℝ → ℝ) (l b : List ℝ)
    (h : ∀ a ∈ l, ∀ x ∈ b, f a x = g a x) :
    List.zipWith f l b = List.zipWith g l b := by
  induction l generalizing b with
  | nil => simp
  | cons a t ih =>
    cases b with
    | nil => simp
    | cons x bs =>
      simp only [List.zipWith_cons_cons]
      rw [h a (by simp) x (by simp),
        ih bs (fun a' ha' x' hx' => h a' (by simp [ha']) x' (by simp [hx']))]

theorem zipWith_fst_eq (l b : List ℝ) (h : l.length ≤ b.length) :
    List.zipWith (fun a _ => a) l b = l := by
  induction l generalizing b with
  | nil => simp
  | cons a t ih =>
    cases b with
    | nil => simp at h
    | cons x bs =>
      simp only [List.zipWith_cons_cons, List.cons.injEq, true_and]
      exact ih bs (by simpa using h)

/-- The first-maximum index is invariant under a transform that preserves the
order of the list's elements. -/
theorem idxmax_map (f : ℝ → ℝ) (l : List ℝ)
    (hmono : ∀ a ∈ l, ∀ b ∈ l, (a ≤ b ↔ f a ≤ f b)) :
    idxmax (l.map f) = idxmax l := by
  induction l with
  | nil => simp
  | cons x xs ih =>
    have hcond : (∀ y ∈ xs.map f, y ≤ f x) ↔ (∀ y ∈ xs, y ≤ x) := by
      constructor
      · intro hf y hy
        exact (hmono y (by simp [hy]) x (by simp)).mpr (hf (f y) (List.mem_map_of_mem f hy))
      · intro hx y hy
        obtain ⟨z, hz, rfl⟩ := List.mem_map.mp hy
        exact (hmono z (by simp [hz]) x (by simp)).mp (hx z hz)
    by_cases hx : ∀ y ∈ xs, y ≤ x
    · simp only [List.map_cons, idxmax]
      rw [if_pos (hcond.mpr hx), if_pos hx]
    · simp only [List.map_cons, idxmax]
      rw [if_neg (fun hf => hx (hcond.mp hf)), if_neg hx]
      rw [ih (fun a ha b hb => hmono a (by simp [ha]) b (by simp [hb]))]

theorem log2_le_log2_iff {x y : ℝ} (hx : 0 < x) (hy : 0 < y) :
    log2 x ≤ log2 y ↔ x ≤ y :=
  Real.logb_le_logb (by norm_num) hx hy

/-- The consensus of a row-wise transformed matrix agrees with the consensus of
the original matrix whenever the transform preserves each row's first-maximum
index. -/
theorem consensus_map_rows (m : Mat) (g : List ℝ → List ℝ) (alph : List Char)
    (h : ∀ row ∈ m, idxmax (g row) = idxmax row) :
    _generate_consensus (m.map g) alph = _generate_consensus m alph := by
  unfold _generate_consensus
  rw [List.map_map]
  refine List.map_congr_left fun row hrow => ?_
  show alph.getD (idxmax (g row)) '?' = alph.getD (idxmax row) '?'
  rw [h row hrow]

theorem exp2_log2 {x : ℝ} (hx : 0 < x) : (2 : ℝ) ^ log2 x = x :=
  Real.rpow_logb (by norm_num) (by norm_num) hx

theorem proportion_sum_filter (row : List ℝ) :
    (row.map __proportion).sum =
      ((row.filter (fun v => decide (0 < v))).map (fun p => p * Real.logb 2 p)).sum := by
  induction row with
  | nil => simp
  | cons a t ih =>
    by_cases ha : 0 < a
    · simp [List.filter_cons, ha, __proportion, ih]
    · simp [List.filter_cons, ha, __proportion, ih]

/-- Successful `_init_pm` on a column-matched probability matrix returns the
input unchanged exactly when the row-sum test passes. -/
theorem init_pm_ppm_ok_of {m : Mat} {atype : AlphabetType} {alph : Option (List Char)}
    (hcols : colsOf m = (alphabetOfType atype alph).length)
    (hac : allcloseOne m) :
    _init_pm m .ppm atype alph = .ok m := by
  simp only [_init_pm, hcols, if_pos rfl, if_true]
  simp [hcols]
  exact hac

/-- For the non-probability kinds, `_init_pm` on a column-matched table is the
identity. -/
theorem init_pm_nonppm_ok_of {m : Mat} {t : PmType} {atype : AlphabetType}
    {alph : Option (List Char)} (ht : t ≠ .ppm)
    (hcols : colsOf m = (alphabetOfType atype alph).length) :
    _init_pm m t atype alph = .ok m := by
  simp [_init_pm, hcols, ht]

/-- An `_init_pm` call for a probability matrix only succeeds with a result
whose rows pass the `np.allclose` row-sum test. -/
theorem init_pm_ppm_sums {mIn q : Mat} {atype : AlphabetType}
    {alph : Option (List Char)} (h : _init_pm mIn .ppm atype alph = .ok q) :
    allcloseOne q := by
  by_cases h1 : colsOf mIn = (alphabetOfType atype alph).length
  · by_cases hac : allcloseOne mIn
    · have : q = mIn := by
        rw [init_pm_ppm_ok_of h1 hac] at h
        exact (Except.ok.inj h).symm
      rw [this]
      exact hac
    · exfalso
      have : _init_pm mIn .ppm atype alph = .error .normErr := by
        simp [_init_pm, h1, hac]
      rw [this] at h
      exact Except.noConfusion h
  · by_cases h2 : rowsOf mIn = (alphabetOfType atype alph).length
    · by_cases hac : allcloseOne mIn.transpose
      · have : q = mIn.transpose := by
          have heq : _init_pm mIn .ppm atype alph = .ok mIn.transpose := by
            simp [_init_pm, h1, h2]
            exact hac
          rw [heq] at h
          exact (Except.ok.inj h).symm
        rw [this]
        exact hac
      · exfalso
        have heq : _init_pm mIn .ppm atype alph = .error .normErr := by
          simp [_init_pm, h1, h2, hac]
        rw [heq] at h
        exact Except.noConfusion h
    · exfalso
      have heq : _init_pm mIn .ppm atype alph =
          .error (.shapeErr (alphabetOfType atype alph).length) := by
        simp [_init_pm, h1, h2]
      rw [heq] at h
      exact Except.noConfusion h

/-! Claim theorems. -/

/-- C6: orientation of a raw table against an alphabet of length `N` is a
three-way case split: a table that already has `N` columns is accepted
unchanged (so orientation of a width-by-N table is a no-op and idempotent);
otherwise a table with `N` rows is transposed; otherwise the call fails with a
shape error naming the expected length `N`.  (Stated for the non-probability
kinds, where acceptance is exactly orientation; the probability kinds add the
separate row-sum check treated in C7.) -/
theorem C6_orientation (m : Mat) (t : PmType) (atype : AlphabetType)
    (alph : Option (List Char)) (ht : t ≠ .ppm) :
    (colsOf m = (alphabetOfType atype alph).length →
      _init_pm m t atype alph = .ok m) ∧
    (colsOf m ≠ (alphabetOfType atype alph).length →
      rowsOf m = (alphabetOfType atype alph).length →
      _init_pm m t atype alph = .ok m.transpose) ∧
    (colsOf m ≠ (alphabetOfType atype alph).length →
      rowsOf m ≠ (alphabetOfType atype alph).length →
      _init_pm m t atype alph = .error (.shapeErr (alphabetOfType atype alph).length)) := by
  refine ⟨fun h1 => ?_, fun h1 h2 => ?_, fun h1 h2 => ?_⟩
  · simp [_init_pm, h1, ht]
  · simp [_init_pm, h1, h2, ht]
  · simp [_init_pm, h1, h2]

/-- Witness for C6 at a concrete 1-by-4 table over the DNA alphabet. -/
theorem C6_orientation_witness :
    (PmType.pfm ≠ PmType.ppm) ∧
    colsOf [[(1 : ℝ), 2, 3, 4]] = (alphabetOfType .DNA none).length ∧
    _init_pm [[(1 : ℝ), 2, 3, 4]] .pfm .DNA none = .ok [[(1 : ℝ), 2, 3, 4]] :=
  ⟨by decide, by decide,
    (C6_orientation [[(1 : ℝ), 2, 3, 4]] .pfm .DNA none (by decide)).1 (by decide)⟩

/-- C7 (amended): the row-sum tolerance actually enforced on probability
matrices is the full `np.allclose` bound `|rowsum - 1| ≤ 1e-8 + 1e-10`
(numpy's default absolute tolerance `1e-8` plus the requested relative
tolerance `1e-10`), not a bare `1e-10` relative tolerance: a correctly shaped
matrix submitted as a PPM is accepted exactly when every row passes that
bound, and every PPM produced by the `pwm2ppm` conversion passes it. -/
theorem C7_row_tolerance :
    (∀ (m : Mat) (atype : AlphabetType) (alph : Option (List Char)),
      colsOf m = (alphabetOfType atype alph).length →
      (_init_pm m .ppm atype alph = .ok m ↔
        ∀ row ∈ m, |row.sum - 1| ≤ 1e-8 + 1e-10)) ∧
    (∀ (w : Mat) (bg : Option Background) (pc : Option ℝ) (q : Mat),
      pwm2ppm w bg pc = .ok q → ∀ row ∈ q, |row.sum - 1| ≤ 1e-8 + 1e-10) := by
  constructor
  · intro m atype alph hcols
    constructor
    · intro hok
      exact init_pm_ppm_sums hok
    · intro hac
      exact init_pm_ppm_ok_of hcols hac
  · intro w bg pc q h
    unfold pwm2ppm at h
    cases bg with
    | none => exact init_pm_ppm_sums (by simpa [_check_background] using h)
    | some b => exact init_pm_ppm_sums (by simpa [_check_background] using h)

/-- Witness for C7 at a concrete exactly normalized 1-by-4 matrix. -/
theorem C7_row_tolerance_witness :
    colsOf [[(1 : ℝ) / 4, 1 / 4, 1 / 4, 1 / 4]] = (alphabetOfType .DNA none).length ∧
    (_init_pm [[(1 : ℝ) / 4, 1 / 4, 1 / 4, 1 / 4]] .ppm .DNA none =
        .ok [[(1 : ℝ) / 4, 1 / 4, 1 / 4, 1 / 4]] ↔
      ∀ row ∈ [[(1 : ℝ) / 4, 1 / 4, 1 / 4, 1 / 4]], |row.sum - 1| ≤ 1e-8 + 1e-10) :=
  ⟨by decide, C7_row_tolerance.1 [[(1 : ℝ) / 4, 1 / 4, 1 / 4, 1 / 4]] .DNA none (by decide)⟩

/-- Counterexample to C7 as stated: a matrix whose row sums to `1 + 5e-9` —
outside the claimed `1e-10` relative tolerance — is nevertheless accepted as a
probability matrix, because the code's `np.allclose(..., 1, 1e-10)` keeps
numpy's default absolute tolerance `1e-8`. -/
theorem C7_counterexample :
    _init_pm [[(1 : ℝ) / 4, 1 / 4, 1 / 4, 1 / 4 + 5e-9]] .ppm .DNA none =
      .ok [[(1 : ℝ) / 4, 1 / 4, 1 / 4, 1 / 4 + 5e-9]] ∧
    ¬ (∀ row ∈ [[(1 : ℝ) / 4, 1 / 4, 1 / 4, 1 / 4 + 5e-9]],
        |row.sum - 1| ≤ 1e-10 * 1) := by
  constructor
  · have hac : allcloseOne [[(1 : ℝ) / 4, 1 / 4, 1 / 4, 1 / 4 + 5e-9]] := by
      intro row hrow
      simp only [List.mem_singleton] at hrow
      subst hrow
      simp only [List.sum_cons, List.sum_nil]
      rw [abs_le]
      constructor <;> norm_num
    exact init_pm_ppm_ok_of (by decide) hac
  · intro hcl
    have := hcl [(1 : ℝ) / 4, 1 / 4, 1 / 4, 1 / 4 + 5e-9] (by simp)
    simp only [List.sum_cons, List.sum_nil] at this
    rw [show ((1 : ℝ) / 4 + (1 / 4 + (1 / 4 + (1 / 4 + 5e-9 + 0)))) - 1 = 5e-9 by ring] at this
    rw [abs_of_nonneg (by norm_num)] at this
    norm_num at this

/-- C8 (amended): `_check_background` uses a caller-supplied background —
scalar or vector — verbatim, performing NO length validation on supplied
vectors (the claimed shape error does not exist on that path); and when no
background is supplied and the alphabet type has no built-in default, it
fails with a configuration error naming the unsupported alphabet type. -/
theorem C8_background_resolution :
    (∀ (pmArg : PmArg) (b : Background),
      _check_background pmArg (some b) = .ok b) ∧
    (∀ (atype : AlphabetType) (alph : List Char),
      atype ∉ NA_ALPHABETS → atype ∉ AA_ALPHABETS →
      _check_background (.pmInst atype alph) none = .error (.configErr atype)) := by
  constructor
  · intro pmArg b
    rfl
  · intro atype alph h1 h2
    simp [_check_background, h1, h2]

/-- Witness for C8 on a supplied scalar and on the `custom` tag. -/
theorem C8_background_resolution_witness :
    _check_background .rawTable (some (.const 1)) = .ok (.const 1) ∧
    (AlphabetType.custom ∉ NA_ALPHABETS) ∧
    (AlphabetType.custom ∉ AA_ALPHABETS) ∧
    _check_background (.pmInst .custom []) none = .error (.configErr .custom) :=
  ⟨C8_background_resolution.1 .rawTable (.const 1), by decide, by decide,
    C8_background_resolution.2 .custom [] (by decide) (by decide)⟩

/-- Counterexample to C8 as stated: a supplied background vector of length 3
against the DNA alphabet (length 4) is returned verbatim instead of raising a
shape error. -/
theorem C8_counterexample :
    ("ACGT".toList.length = 4) ∧
    (([(1 : ℝ) / 10, 2 / 10, 7 / 10] : List ℝ).length ≠ 4) ∧
    _check_background (.pmInst .DNA ("ACGT".toList))
        (some (.vec [(1 : ℝ) / 10, 2 / 10, 7 / 10])) =
      .ok (.vec [(1 : ℝ) / 10, 2 / 10, 7 / 10]) :=
  ⟨by decide, by decide, rfl⟩

/-- C10: the per-cell helper of the legacy information content is total over
the reals: it returns `p * log2 p` for `p > 0` and exactly `0` for `p ≤ 0`, so
the legacy per-row value `2 + Σ __proportion` is a well-defined real number in
which zero (and negative) entries contribute exactly nothing — equivalently,
each row's value is `2` plus the sum of `p * log2 p` over the row's strictly
positive entries only. -/
theorem C10_proportion_total :
    (∀ p : ℝ, 0 < p → __proportion p = p * Real.logb 2 p) ∧
    (∀ p : ℝ, p ≤ 0 → __proportion p = 0) ∧
    (∀ m : Mat, _row_wise_ic m = m.map (fun row =>
      2 + ((row.filter (fun v => decide (0 < v))).map (fun p => p * Real.logb 2 p)).sum)) := by
  refine ⟨fun p hp => by simp [__proportion, hp], fun p hp => ?_, fun m => ?_⟩
  · simp [__proportion, not_lt.mpr hp]
  · unfold _row_wise_ic
    exact List.map_congr_left fun row _ => by rw [proportion_sum_filter row]

/-- Witness for C10 at a positive and a non-positive input. -/
theorem C10_proportion_total_witness :
    (0 < (2 : ℝ)) ∧ __proportion 2 = 2 * Real.logb 2 2 ∧
    ((-1 : ℝ) ≤ 0) ∧ __proportion (-1) = 0 :=
  ⟨by norm_num, C10_proportion_total.1 2 (by norm_num), by norm_num,
    C10_proportion_total.2.1 (-1) (by norm_num)⟩

/-- C4 (amended): the PPM-to-PFM conversion and the lazy `counts` computation
map every cell `v` of a nonnegative matrix to `⌊v * 100⌋` — numpy's
`.astype(np.int64)` truncation toward zero, which on nonnegative cells is the
floor — not to `round(v * 100)`. -/
theorem C4_astype_truncates (m : Mat)
    (hnn : ∀ row ∈ m, ∀ v ∈ row, 0 ≤ v)
    (hc : colsOf m = 4) :
    ppm2pfm m = .ok (m.map (fun row => row.map (fun v => ((⌊v * 100⌋ : ℤ) : ℝ)))) ∧
    pmCounts m = m.map (fun row => row.map (fun v => ((⌊v * 100⌋ : ℤ) : ℝ))) := by
  have hcells : countsCells m =
      m.map (fun row => row.map (fun v => ((⌊v * 100⌋ : ℤ) : ℝ))) := by
    unfold countsCells
    refine List.map_congr_left fun row hrow => ?_
    refine List.map_congr_left fun v hv => ?_
    have : astypeInt (v * 100) = ⌊v * 100⌋ := by
      unfold astypeInt
      rw [if_pos (mul_nonneg (hnn row hrow v hv) (by norm_num))]
    rw [this]
  have hcol : colsOf (m.map (fun row => row.map (fun v => ((⌊v * 100⌋ : ℤ) : ℝ)))) = 4 := by
    cases m with
    | nil => exact absurd hc (by simp [colsOf])
    | cons r tl => simpa [colsOf] using hc
  constructor
  · unfold ppm2pfm
    rw [hcells]
    have hN : (alphabetOfType .DNA none).length = 4 := by decide
    simp [_init_pm, hN, hcol]
  · unfold pmCounts
    exact hcells

/-- Witness for C4 at a concrete 1-by-4 probability matrix. -/
theorem C4_astype_truncates_witness :
    (∀ row ∈ [[(1 : ℝ) / 4, 1 / 4, 1 / 4, 1 / 4]], ∀ v ∈ row, 0 ≤ v) ∧
    colsOf [[(1 : ℝ) / 4, 1 / 4, 1 / 4, 1 / 4]] = 4 ∧
    ppm2pfm [[(1 : ℝ) / 4, 1 / 4, 1 / 4, 1 / 4]] =
      .ok [[((⌊(1 : ℝ) / 4 * 100⌋ : ℤ) : ℝ), ((⌊(1 : ℝ) / 4 * 100⌋ : ℤ) : ℝ),
        ((⌊(1 : ℝ) / 4 * 100⌋ : ℤ) : ℝ), ((⌊(1 : ℝ) / 4 * 100⌋ : ℤ) : ℝ)]] := by
  have hnn : ∀ row ∈ [[(1 : ℝ) / 4, 1 / 4, 1 / 4, 1 / 4]], ∀ v ∈ row, 0 ≤ v := by
    intro row hrow v hv
    simp only [List.mem_singleton] at hrow
    subst hrow
    simp only [List.mem_cons, List.not_mem_nil, or_false] at hv
    rcases hv with rfl | rfl | rfl | rfl <;> norm_num
  refine ⟨hnn, by decide, ?_⟩
  have h := (C4_astype_truncates [[(1 : ℝ) / 4, 1 / 4, 1 / 4, 1 / 4]] hnn (by decide)).1
  simpa using h

/-- Counterexample to C4 as stated: on the valid probability row
`[0.299, 0.701, 0, 0]` the code produces `⌊29.9⌋ = 29` in the first cell while
`round(29.9) = 30`; the conversion truncates rather than rounds. -/
theorem C4_counterexample :
    ppm2pfm [[(299 : ℝ) / 1000, 701 / 1000, 0, 0]] =
      .ok [[(29 : ℝ), 70, 0, 0]] ∧
    ppm2pfmRoundSpec [[(299 : ℝ) / 1000, 701 / 1000, 0, 0]] = [[(30 : ℝ), 70, 0, 0]] ∧
    ppm2pfm [[(299 : ℝ) / 1000, 701 / 1000, 0, 0]] ≠
      .ok (ppm2pfmRoundSpec [[(299 : ℝ) / 1000, 701 / 1000, 0, 0]]) := by
  have hf1 : (⌊(299 : ℝ) / 1000 * 100⌋ : ℤ) = 29 := by
    rw [Int.floor_eq_iff]
    constructor <;> norm_num
  have hf2 : (⌊(701 : ℝ) / 1000 * 100⌋ : ℤ) = 70 := by
    rw [Int.floor_eq_iff]
    constructor <;> norm_num
  have hf0 : (⌊(0 : ℝ) * 100⌋ : ℤ) = 0 := by norm_num
  have hr1 : (round ((299 : ℝ) / 1000 * 100) : ℤ) = 30 := by
    rw [round_eq, Int.floor_eq_iff]
    constructor <;> norm_num
  have hr2 : (round ((701 : ℝ) / 1000 * 100) : ℤ) = 70 := by
    rw [round_eq, Int.floor_eq_iff]
    constructor <;> norm_num
  have hr0 : (round ((0 : ℝ) * 100) : ℤ) = 0 := by norm_num
  have h1 : ppm2pfm [[(299 : ℝ) / 1000, 701 / 1000, 0, 0]] =
      .ok [[(29 : ℝ), 70, 0, 0]] := by
    have hcells : countsCells [[(299 : ℝ) / 1000, 701 / 1000, 0, 0]] =
        [[(29 : ℝ), 70, 0, 0]] := by
      simp [countsCells, astypeInt, hf1, hf2]
      norm_num
    unfold ppm2pfm
    rw [hcells]
    simp [_init_pm, colsOf, alphabetOfType, IDX_LETTERS]
  have h2 : ppm2pfmRoundSpec [[(299 : ℝ) / 1000, 701 / 1000, 0, 0]] =
      [[(30 : ℝ), 70, 0, 0]] := by
    simp [ppm2pfmRoundSpec, hr1, hr2, hr0]
  refine ⟨h1, h2, ?_⟩
  rw [h1, h2]
  intro hcontra
  simp only [Except.ok.injEq, List.cons.injEq] at hcontra
  norm_num at hcontra

/-- C2 (amended): for every probability matrix with exactly 4 columns
(matching the hard-coded DNA default of the raw conversions), nonnegative
cells and rows summing to 1, every strictly positive background — a scalar or
a vector of the matching length 4 — and every strictly positive pseudocount,
converting to a weight matrix with `ppm2pwm` and back with `pwm2ppm` returns
exactly the original matrix (hence within 1e-6 cell-by-cell). -/
theorem C2_roundtrip (P : Mat) (bg : Background) (pc : ℝ)
    (hne : P ≠ []) (hrect : ∀ row ∈ P, row.length = 4)
    (hnn : ∀ row ∈ P, ∀ v ∈ row, 0 ≤ v)
    (hsum : ∀ row ∈ P, row.sum = 1)
    (hbg : BgOk bg) (hpc : 0 < pc) :
    roundTrip P (some bg) (some pc) = .ok P := by
  have hN : (alphabetOfType .DNA none).length = 4 := by decide
  have hbgl : (bgList bg 4).length = 4 := by
    cases bg with
    | const c => simp [bgList]
    | vec v => simpa [bgList] using hbg.1
  have hW0rows : ∀ row ∈ P,
      (List.zipWith (fun v b => log2 (v + pc) - log2 b) row (bgList bg row.length)).length
        = 4 := by
    intro row hrow
    have h4 := hrect row hrow
    simp [List.length_zipWith, h4, hbgl]
  have hcolsP : colsOf P = 4 := by
    cases P with
    | nil => exact absurd rfl hne
    | cons r0 tl => simpa [colsOf] using hrect r0 (by simp)
  have hcolsW0 : colsOf (ppm2pwmCells pc bg P) = 4 := by
    cases P with
    | nil => exact absurd rfl hne
    | cons r0 tl =>
      have := hW0rows r0 (by simp)
      simpa [ppm2pwmCells, colsOf] using this
  have hstep1 : ppm2pwm P (some bg) (some pc) = .ok (ppm2pwmCells pc bg P) := by
    unfold ppm2pwm
    simp only [_check_background, defaultPc, Option.getD_some]
    simp [_init_pm, hN, hcolsW0]
  have hQ0 : pwm2ppmCells pc bg (ppm2pwmCells pc bg P) = P := by
    unfold ppm2pwmCells pwm2ppmCells
    rw [List.map_map]
    have hrowEq : ∀ row ∈ P,
        (List.zipWith (fun v b => (2 : ℝ) ^ (v + log2 b) - pc)
          (List.zipWith (fun v b => log2 (v + pc) - log2 b) row (bgList bg row.length))
          (bgList bg (List.zipWith (fun v b => log2 (v + pc) - log2 b) row
            (bgList bg row.length)).length)) = row := by
      intro row hrow
      have h4 := hrect row hrow
      rw [hW0rows row hrow, h4]
      rw [zipWith_zipWith_same]
      rw [zipWith_congr_mem _ (fun a _ => a) row (bgList bg 4)
        (fun a ha x _ => by
          have hpos : 0 < a + pc :=
            add_pos_of_nonneg_of_pos (hnn row hrow a ha) hpc
          have hexp : log2 (a + pc) - log2 x + log2 x = log2 (a + pc) := by ring
          rw [hexp, exp2_log2 hpos]
          ring)]
      exact zipWith_fst_eq row (bgList bg 4) (by rw [h4, hbgl])
    calc (P.map fun row =>
        List.zipWith (fun v b => (2 : ℝ) ^ (v + log2 b) - pc)
          (List.zipWith (fun v b => log2 (v + pc) - log2 b) row (bgList bg row.length))
          (bgList bg (List.zipWith (fun v b => log2 (v + pc) - log2 b) row
            (bgList bg row.length)).length))
        = P.map id := List.map_congr_left fun row hrow => hrowEq row hrow
      _ = P := List.map_id P
  have hacP : allcloseOne P := by
    intro row hrow
    rw [hsum row hrow]
    norm_num
  have hstep2 : pwm2ppm (ppm2pwmCells pc bg P) (some bg) (some pc) = .ok P := by
    unfold pwm2ppm
    simp only [_check_background, defaultPc, Option.getD_some]
    rw [hQ0]
    exact init_pm_ppm_ok_of (by rw [hN]; exact hcolsP) hacP
  unfold roundTrip
  rw [hstep1]
  exact hstep2

/-- Witness for C2 at a concrete uniform DNA probability matrix, scalar
background 1/4 and pseudocount 1/2. -/
theorem C2_roundtrip_witness :
    (([[(1 : ℝ) / 4, 1 / 4, 1 / 4, 1 / 4]] : Mat) ≠ []) ∧
    (∀ row ∈ ([[(1 : ℝ) / 4, 1 / 4, 1 / 4, 1 / 4]] : Mat), row.sum = 1) ∧
    BgOk (.const (1 / 4)) ∧ (0 < (1 : ℝ) / 2) ∧
    roundTrip [[(1 : ℝ) / 4, 1 / 4, 1 / 4, 1 / 4]] (some (.const (1 / 4)))
        (some (1 / 2)) =
      .ok [[(1 : ℝ) / 4, 1 / 4, 1 / 4, 1 / 4]] := by
  have hsum : ∀ row ∈ ([[(1 : ℝ) / 4, 1 / 4, 1 / 4, 1 / 4]] : Mat), row.sum = 1 := by
    intro row hrow
    simp only [List.mem_singleton] at hrow
    subst hrow
    norm_num
  have hnn : ∀ row ∈ ([[(1 : ℝ) / 4, 1 / 4, 1 / 4, 1 / 4]] : Mat), ∀ v ∈ row, 0 ≤ v := by
    intro row hrow v hv
    simp only [List.mem_singleton] at hrow
    subst hrow
    simp only [List.mem_cons, List.not_mem_nil, or_false] at hv
    rcases hv with rfl | rfl | rfl | rfl <;> norm_num
  refine ⟨by simp, hsum, by norm_num [BgOk], by norm_num, ?_⟩
  refine C2_roundtrip _ _ _ (by simp) ?_ hnn hsum (by norm_num [BgOk]) (by norm_num)
  intro row hrow
  simp only [List.mem_singleton] at hrow
  subst hrow
  rfl

/-- Counterexample to C2 as stated: a valid 2-by-20 amino-acid probability
matrix (uniform rows summing to 1), with a strictly positive scalar background
and the default pseudocount, fails the round trip outright — the conversion
pipeline hard-codes the DNA alphabet length 4 in its internal `_init_pm`
calls and raises a shape error naming 4 instead of returning a matrix. -/
theorem C2_counterexample :
    (∀ row ∈ P20, row.sum = 1) ∧ (0 < (1 : ℝ) / 20) ∧
    roundTrip P20 (some (.const (1 / 20))) (some 1e-10) = .error (.shapeErr 4) := by
  refine ⟨?_, by norm_num, ?_⟩
  · intro row hrow
    simp only [P20, List.mem_replicate] at hrow
    rw [hrow.2]
    simp [List.sum_replicate]
    norm_num
  · have hcolsW0 : colsOf (ppm2pwmCells (defaultPc (some 1e-10)) (.const (1 / 20)) P20)
        = 20 := by
      simp [ppm2pwmCells, P20, colsOf, bgList, List.length_zipWith]
    have hrowsW0 : rowsOf (ppm2pwmCells (defaultPc (some 1e-10)) (.const (1 / 20)) P20)
        = 2 := by
      simp [ppm2pwmCells, P20, rowsOf]
    have hN : (alphabetOfType .DNA none).length = 4 := by decide
    have hinit : _init_pm (ppm2pwmCells (defaultPc (some 1e-10)) (.const (1 / 20)) P20)
        .pwm .DNA none = .error (.shapeErr 4) := by
      simp only [_init_pm, hN, hcolsW0, hrowsW0]
      simp
    unfold roundTrip ppm2pwm
    simp only [_check_background]
    rw [hinit]

/-- C3 (amended): for every valid 4-column frequency matrix (nonnegative
cells, positive row totals — 4 columns matching the hard-coded DNA default of
the raw conversions), every fixed positive SCALAR (uniform) background, and
every positive pseudocount, the per-row-argmax consensus computed from the
PFM, from its derived PPM, and from its derived PWM coincide. -/
theorem C3_consensus_scalar_bg (F : Mat) (c pc : ℝ) (alph : List Char)
    (hne : F ≠ []) (hrect : ∀ row ∈ F, row.length = 4)
    (hnn : ∀ row ∈ F, ∀ v ∈ row, 0 ≤ v)
    (hrs : ∀ row ∈ F, 0 < row.sum)
    (hc : 0 < c) (hpc : 0 < pc) :
    ∃ P W, pfm2ppm F = .ok P ∧ pfm2pwm F (some (.const c)) (some pc) = .ok W ∧
      _generate_consensus P alph = _generate_consensus F alph ∧
      _generate_consensus W alph = _generate_consensus F alph := by
  have hN : (alphabetOfType .DNA none).length = 4 := by decide
  -- the derived probability matrix
  have hcolsP : colsOf (F.map (fun row => row.map (fun v => v / row.sum))) = 4 := by
    cases F with
    | nil => exact absurd rfl hne
    | cons r0 tl => simpa [colsOf] using hrect r0 (by simp)
  have hacP : allcloseOne (F.map (fun row => row.map (fun v => v / row.sum))) := by
    intro row' hrow'
    obtain ⟨row, hrow, rfl⟩ := List.mem_map.mp hrow'
    rw [sum_map_div, div_self (ne_of_gt (hrs row hrow))]
    norm_num
  have hstep1 : pfm2ppm F = .ok (F.map (fun row => row.map (fun v => v / row.sum))) := by
    unfold pfm2ppm
    exact init_pm_ppm_ok_of (by rw [hN]; exact hcolsP) hacP
  have hnnP : ∀ row' ∈ F.map (fun row => row.map (fun v => v / row.sum)),
      ∀ p ∈ row', 0 ≤ p := by
    intro row' hrow' p hp
    obtain ⟨row, hrow, rfl⟩ := List.mem_map.mp hrow'
    obtain ⟨v, hv, rfl⟩ := List.mem_map.mp hp
    exact div_nonneg (hnn row hrow v hv) (le_of_lt (hrs row hrow))
  have hrectP : ∀ row' ∈ F.map (fun row => row.map (fun v => v / row.sum)),
      row'.length = 4 := by
    intro row' hrow'
    obtain ⟨row, hrow, rfl⟩ := List.mem_map.mp hrow'
    simpa using hrect row hrow
  -- the derived weight matrix, rewritten from the zipWith broadcast form over
  -- the derived PPM to a single per-cell map over F (the background is the
  -- scalar c)
  have hW0eq : ppm2pwmCells pc (.const c)
        (F.map (fun row => row.map (fun v => v / row.sum))) =
      F.map (fun row => row.map (fun v => log2 (v / row.sum + pc) - log2 c)) := by
    unfold ppm2pwmCells
    rw [List.map_map]
    refine List.map_congr_left fun row _ => ?_
    show List.zipWith (fun v b => log2 (v + pc) - log2 b)
        (row.map (fun v => v / row.sum))
        (bgList (.const c) (row.map (fun v => v / row.sum)).length) = _
    simp only [bgList]
    rw [zipWith_replicate_right, List.map_map]
    rfl
  have hcolsW : colsOf (F.map
      (fun row => row.map (fun v => log2 (v / row.sum + pc) - log2 c))) = 4 := by
    cases F with
    | nil => exact absurd rfl hne
    | cons r0 tl => simpa [colsOf] using hrect r0 (by simp)
  have hstep2 : ppm2pwm (F.map (fun row => row.map (fun v => v / row.sum)))
      (some (.const c)) (some pc) =
      .ok (F.map (fun row => row.map (fun v => log2 (v / row.sum + pc) - log2 c))) := by
    unfold ppm2pwm
    simp only [_check_background, defaultPc, Option.getD_some]
    rw [hW0eq]
    exact init_pm_nonppm_ok_of (by decide) (by rw [hN]; exact hcolsW)
  have hstep3 : _init_pm (F.map
      (fun row => row.map (fun v => log2 (v / row.sum + pc) - log2 c))) .pwm .DNA none =
      .ok (F.map (fun row => row.map (fun v => log2 (v / row.sum + pc) - log2 c))) :=
    init_pm_nonppm_ok_of (by decide) (by rw [hN]; exact hcolsW)
  have hstepW : pfm2pwm F (some (.const c)) (some pc) =
      .ok (F.map (fun row => row.map (fun v => log2 (v / row.sum + pc) - log2 c))) := by
    simp only [pfm2pwm, hstep1, hstep2, hstep3]
  -- consensus invariance PFM -> PPM (division by the positive row total)
  have hconsP : _generate_consensus
      (F.map (fun row => row.map (fun v => v / row.sum))) alph =
      _generate_consensus F alph := by
    refine consensus_map_rows F _ alph fun row hrow => ?_
    refine idxmax_map (fun v => v / row.sum) row fun a _ b _ => ?_
    exact (div_le_div_iff_of_pos_right (hrs row hrow)).symm
  -- consensus invariance PFM -> PWM (division, shift, log, shift: monotone)
  have hconsW : _generate_consensus
      (F.map (fun row => row.map (fun v => log2 (v / row.sum + pc) - log2 c))) alph =
      _generate_consensus F alph := by
    refine consensus_map_rows F _ alph fun row hrow => ?_
    refine idxmax_map (fun v => log2 (v / row.sum + pc) - log2 c) row fun a ha b hb => ?_
    have hpa : 0 < a / row.sum + pc :=
      add_pos_of_nonneg_of_pos
        (div_nonneg (hnn row hrow a ha) (le_of_lt (hrs row hrow))) hpc
    have hpb : 0 < b / row.sum + pc :=
      add_pos_of_nonneg_of_pos
        (div_nonneg (hnn row hrow b hb) (le_of_lt (hrs row hrow))) hpc
    rw [sub_le_sub_iff_right, log2_le_log2_iff hpa hpb, add_le_add_iff_right,
      div_le_div_iff_of_pos_right (hrs row hrow)]
  exact ⟨_, _, hstep1, hstepW, hconsP, hconsW⟩

/-- Witness for C3 at the concrete frequency matrix `[[1, 2, 1, 1]]` with
scalar background 1/4 and pseudocount 1/2. -/
theorem C3_consensus_scalar_bg_witness :
    (([[(1 : ℝ), 2, 1, 1]] : Mat) ≠ []) ∧ (0 < (1 : ℝ) / 4) ∧ (0 < (1 : ℝ) / 2) ∧
    (∃ P W, pfm2ppm [[(1 : ℝ), 2, 1, 1]] = .ok P ∧
      pfm2pwm [[(1 : ℝ), 2, 1, 1]] (some (.const (1 / 4))) (some (1 / 2)) = .ok W ∧
      _generate_consensus P ("ACGT".toList) =
        _generate_consensus [[(1 : ℝ), 2, 1, 1]] ("ACGT".toList) ∧
      _generate_consensus W ("ACGT".toList) =
        _generate_consensus [[(1 : ℝ), 2, 1, 1]] ("ACGT".toList)) := by
  refine ⟨by simp, by norm_num, by norm_num, ?_⟩
  refine C3_consensus_scalar_bg [[(1 : ℝ), 2, 1, 1]] (1 / 4) (1 / 2) ("ACGT".toList)
    (by simp) ?_ ?_ ?_ (by norm_num) (by norm_num)
  · intro row hrow
    simp only [List.mem_singleton] at hrow
    subst hrow
    rfl
  · intro row hrow v hv
    simp only [List.mem_singleton] at hrow
    subst hrow
    simp only [List.mem_cons, List.not_mem_nil, or_false] at hv
    rcases hv with rfl | rfl | rfl | rfl <;> norm_num
  · intro row hrow
    simp only [List.mem_singleton] at hrow
    subst hrow
    norm_num

/-- Counterexample to C3 as stated: with the uniform frequency row
`[1, 1, 1, 1]`, the strictly positive background VECTOR `[1, 1/2, 1, 1]` and
the default pseudocount, the consensus from the frequency matrix is "A"
(first-occurrence tie-break) but the consensus from the derived weight matrix
is "C", because the per-column background shifts the log-odds scores by
different amounts — argmax is not invariant under `ppm2pwm` with a non-uniform
background vector. -/
theorem C3_counterexample :
    (∀ x ∈ [(1 : ℝ), 1 / 2, 1, 1], 0 < x) ∧
    _generate_consensus [[(1 : ℝ), 1, 1, 1]] ("ACGT".toList) = ['A'] ∧
    (pfm2pwm [[(1 : ℝ), 1, 1, 1]] (some (.vec [(1 : ℝ), 1 / 2, 1, 1])) none).map
        (fun w => _generate_consensus w ("ACGT".toList)) = .ok ['C'] ∧
    (['C'] : List Char) ≠ ['A'] := by
  have halph : "ACGT".toList = ['A', 'C', 'G', 'T'] := rfl
  have hN : (alphabetOfType .DNA none).length = 4 := by decide
  have hpos : ∀ x ∈ [(1 : ℝ), 1 / 2, 1, 1], 0 < x := by
    intro x hx
    simp only [List.mem_cons, List.not_mem_nil, or_false] at hx
    rcases hx with rfl | rfl | rfl | rfl <;> norm_num
  have hidxF : idxmax [(1 : ℝ), 1, 1, 1] = 0 := by
    simp only [idxmax]
    rw [if_pos]
    intro y hy
    simp only [List.mem_cons, List.not_mem_nil, or_false] at hy
    rcases hy with rfl | rfl | rfl <;> norm_num
  have hconsF : _generate_consensus [[(1 : ℝ), 1, 1, 1]] ("ACGT".toList) = ['A'] := by
    simp [_generate_consensus, hidxF, halph]
  have hmap : ([[(1 : ℝ), 1, 1, 1]] : Mat).map
      (fun row => row.map (fun v => v / row.sum)) =
      [[(1 : ℝ) / 4, 1 / 4, 1 / 4, 1 / 4]] := by
    norm_num [List.sum_cons, List.sum_nil]
  have hstep1 : pfm2ppm [[(1 : ℝ), 1, 1, 1]] = .ok [[(1 : ℝ) / 4, 1 / 4, 1 / 4, 1 / 4]] := by
    unfold pfm2ppm
    rw [hmap]
    refine init_pm_ppm_ok_of (by decide) ?_
    intro row hrow
    simp only [List.mem_singleton] at hrow
    subst hrow
    norm_num
  have hlog1 : log2 (1 : ℝ) = 0 := by simp [log2]
  have hloghalf : log2 ((2 : ℝ)⁻¹) = -1 := by
    rw [log2, Real.logb_inv, Real.logb_self_eq_one (by norm_num)]
  have hcells : ppm2pwmCells (defaultPc none) (.vec [(1 : ℝ), 1 / 2, 1, 1])
      [[(1 : ℝ) / 4, 1 / 4, 1 / 4, 1 / 4]] =
      [[log2 ((1 : ℝ) / 4 + defaultPc none), log2 ((1 : ℝ) / 4 + defaultPc none) + 1,
        log2 ((1 : ℝ) / 4 + defaultPc none), log2 ((1 : ℝ) / 4 + defaultPc none)]] := by
    simp [ppm2pwmCells, bgList, hlog1, hloghalf, sub_neg_eq_add]
  have hstepPwm : ppm2pwm [[(1 : ℝ) / 4, 1 / 4, 1 / 4, 1 / 4]]
      (some (.vec [(1 : ℝ), 1 / 2, 1, 1])) none =
      .ok [[log2 ((1 : ℝ) / 4 + defaultPc none), log2 ((1 : ℝ) / 4 + defaultPc none) + 1,
        log2 ((1 : ℝ) / 4 + defaultPc none), log2 ((1 : ℝ) / 4 + defaultPc none)]] := by
    unfold ppm2pwm
    simp only [_check_background]
    rw [hcells]
    exact init_pm_nonppm_ok_of (by decide) (by rw [hN]; rfl)
  have hstep3 : _init_pm [[log2 ((1 : ℝ) / 4 + defaultPc none),
      log2 ((1 : ℝ) / 4 + defaultPc none) + 1, log2 ((1 : ℝ) / 4 + defaultPc none),
      log2 ((1 : ℝ) / 4 + defaultPc none)]] .pwm .DNA none =
      .ok [[log2 ((1 : ℝ) / 4 + defaultPc none), log2 ((1 : ℝ) / 4 + defaultPc none) + 1,
        log2 ((1 : ℝ) / 4 + defaultPc none), log2 ((1 : ℝ) / 4 + defaultPc none)]] :=
    init_pm_nonppm_ok_of (by decide) (by rw [hN]; rfl)
  have hstepW : pfm2pwm [[(1 : ℝ), 1, 1, 1]] (some (.vec [(1 : ℝ), 1 / 2, 1, 1])) none =
      .ok [[log2 ((1 : ℝ) / 4 + defaultPc none), log2 ((1 : ℝ) / 4 + defaultPc none) + 1,
        log2 ((1 : ℝ) / 4 + defaultPc none), log2 ((1 : ℝ) / 4 + defaultPc none)]] := by
    simp only [pfm2pwm, hstep1, hstepPwm, hstep3]
  have hidxW : idxmax [log2 ((1 : ℝ) / 4 + defaultPc none),
      log2 ((1 : ℝ) / 4 + defaultPc none) + 1, log2 ((1 : ℝ) / 4 + defaultPc none),
      log2 ((1 : ℝ) / 4 + defaultPc none)] = 1 := by
    have h1 : ¬ (∀ y ∈ [log2 ((1 : ℝ) / 4 + defaultPc none) + 1,
        log2 ((1 : ℝ) / 4 + defaultPc none), log2 ((1 : ℝ) / 4 + defaultPc none)],
        y ≤ log2 ((1 : ℝ) / 4 + defaultPc none)) := by
      intro hall
      have := hall (log2 ((1 : ℝ) / 4 + defaultPc none) + 1) (by simp)
      linarith
    have h2 : ∀ y ∈ [log2 ((1 : ℝ) / 4 + defaultPc none),
        log2 ((1 : ℝ) / 4 + defaultPc none)],
        y ≤ log2 ((1 : ℝ) / 4 + defaultPc none) + 1 := by
      intro y hy
      simp only [List.mem_cons, List.not_mem_nil, or_false] at hy
      rcases hy with rfl | rfl <;> linarith
    simp only [idxmax]
    rw [if_neg h1, if_pos h2]
  have hconsW : _generate_consensus [[log2 ((1 : ℝ) / 4 + defaultPc none),
      log2 ((1 : ℝ) / 4 + defaultPc none) + 1, log2 ((1 : ℝ) / 4 + defaultPc none),
      log2 ((1 : ℝ) / 4 + defaultPc none)]] ("ACGT".toList) = ['C'] := by
    simp only [_generate_consensus, halph, List.map_cons, List.map_nil]
    rw [hidxW]
    rfl
  refine ⟨hpos, hconsF, ?_, by decide⟩
  rw [hstepW]
  simp only [Except.map]
  rw [hconsW]

/-- C1: for every reconciled matrix set with a probability matrix `P` and a
weight matrix `W`, the stored per-position information content is the
background-aware general form — entry `i` is `Σ_k P[i,k] * W[i,k]`, the per-row
dot product `(self.ppm * self.pwm).sum(axis=1)` of line 830 — not the legacy
uniform-background shortcut `2 + Σ_k p·log2 p`. -/
theorem C1_ic_general (s t : CState) (fIn pIn wIn : Option Mat)
    (bgArg : Option Background) (pcArg : Option ℝ) (P W : Mat)
    (h : completeUpdatePm s fIn pIn wIn bgArg pcArg = (t, none))
    (hp : t.ppm = some P) (hw : t.pwm = some W) :
    t.ic = some (List.zipWith (fun pr wr =>
      (List.zipWith (fun a b => a * b) pr wr).sum) P W) := by
  obtain ⟨smid, -, hfin⟩ := andThenE_ok h
  obtain ⟨canon, wM, bg, -, -, hpc, hwc, hic, -, -, -, -, -, -⟩ := finalize_ok hfin
  rw [hpc] at hp
  rw [hwc] at hw
  obtain rfl : P = canon := (Option.some.inj hp).symm
  obtain rfl : W = wM := (Option.some.inj hw).symm
  simpa [rowDots] using hic

/-- C9 (code bug): the ungapped half of the claim holds — every successful
reconciliation has a standard DNA/RNA/AA alphabet type and stores a ones
weight vector of length `width` — but the gapped half is not what the code
does: line 824 evaluates the 2-D positional slice `self._get_pm[:,:-1]` on a
`pandas.DataFrame`, which raises, so reconciliation over a gapped alphabet
terminates with an error and never computes the documented gap weight.  At
the concrete valid 1-by-6 "reduced DNA" matrix set, the run stops at the
weight line with the width already assigned and the weight still unset. -/
theorem C9_weight :
    (∀ (s t : CState) (fIn pIn wIn : Option Mat) (bgArg : Option Background)
      (pcArg : Option ℝ) (P : Mat),
      completeUpdatePm s fIn pIn wIn bgArg pcArg = (t, none) →
      t.ppm = some P →
      t.alphabet_type ∈ stdTypes ∧ t.width = some P.length ∧
      t.weight = some (List.replicate P.length (1 : ℝ))) ∧
    completeUpdatePm gState0 (some gPfm) (some gPpm) (some gPwm) none none =
      (gFail, some .typeErr) ∧
    gFail.weight = none := by
  refine ⟨?_, ?_, rfl⟩
  · intro s t fIn pIn wIn bgArg pcArg P h hp
    obtain ⟨smid, -, hfin⟩ := andThenE_ok h
    obtain ⟨canon, wM, bg, -, -, hpc, -, -, hwidth, hmem, hweight, hat, -, -⟩ :=
      finalize_ok hfin
    rw [hpc] at hp
    obtain rfl : P = canon := (Option.some.inj hp).symm
    exact ⟨hat ▸ hmem, hwidth, hweight⟩
  · have hiF : _init_pm gPfm .pfm .reducedDNA none = .ok gPfm :=
      init_pm_nonppm_ok_of (by decide) (by decide)
    have hiP : _init_pm gPpm .ppm .reducedDNA none = .ok gPpm := by
      refine init_pm_ppm_ok_of (by decide) ?_
      intro row hrow
      simp only [gPpm, List.mem_singleton] at hrow
      subst hrow
      simp only [List.sum_cons, List.sum_nil]
      rw [abs_le]
      constructor <;> norm_num
    have hiW : _init_pm gPwm .pwm .reducedDNA none = .ok gPwm :=
      init_pm_nonppm_ok_of (by decide) (by decide)
    have hpre : preSteps gState0 (some gPfm) (some gPpm) (some gPwm) none none =
        (gMid, none) := by
      simp only [preSteps, stepSetPfm, stepSetPpm, stepSetPwm, gState0,
        hiF, hiP, hiW, andThenE,
        stepFillPpmFromPfm, stepFillPwmFromPfm, stepFillPfmFromPpm,
        stepFillPwmFromPpm, stepFillPfmFromPwm, stepFillPpmFromPwm,
        Option.isSome_some, Option.isNone_some, Bool.and_false, Bool.false_and,
        Bool.false_eq_true, if_false]
      rfl
    have hfin : finalize gMid = (gFail, some .typeErr) := by
      simp only [finalize]
      rw [show gMid.ppm = some gPpm from rfl]
      simp only []
      rw [if_neg (show ¬ gMid.alphabet_type ∈ stdTypes by decide)]
      rfl
    unfold completeUpdatePm
    rw [hpre]
    show finalize gMid = (gFail, some .typeErr)
    exact hfin

/-- C5 (amended): reconciliation is NOT all-or-nothing in general — matrices
assigned before a failing step keep their new values (see the counterexample)
— but a validation failure at the first-processed supplied input does leave
the previous state untouched: a supplied PFM that fails validation, or, with
no PFM supplied, a supplied PPM that fails validation, returns with the state
exactly as before the call. -/
theorem C5_first_failure_untouched (s : CState) (bgArg : Option Background)
    (pcArg : Option ℝ) :
    (∀ (F : Mat) (pIn wIn : Option Mat) (e : Err),
      _init_pm F .pfm s.alphabet_type s.alphabet = .error e →
      completeUpdatePm s (some F) pIn wIn bgArg pcArg = (s, some e)) ∧
    (∀ (P : Mat) (wIn : Option Mat) (e : Err),
      _init_pm P .ppm s.alphabet_type s.alphabet = .error e →
      completeUpdatePm s none (some P) wIn bgArg pcArg = (s, some e)) := by
  constructor
  · intro F pIn wIn e he
    simp [completeUpdatePm, preSteps, stepSetPfm, he, andThenE]
  · intro P wIn e he
    simp [completeUpdatePm, preSteps, stepSetPfm, stepSetPpm, he, andThenE]

/-! Concrete evaluation of one full reconciliation run (all three matrices
supplied to a fresh DNA set), used by the reconciliation witnesses. -/

theorem cEvalInitPfm : _init_pm cPfm .pfm .DNA none = .ok cPfm :=
  init_pm_nonppm_ok_of (by decide) (by decide)

theorem cEvalInitPpm : _init_pm cPpm .ppm .DNA none = .ok cPpm := by
  refine init_pm_ppm_ok_of (by decide) ?_
  intro row hrow
  simp only [cPpm, List.mem_singleton] at hrow
  subst hrow
  simp only [List.sum_cons, List.sum_nil]
  rw [abs_le]
  constructor <;> norm_num

theorem cEvalInitPwm : _init_pm cPwm .pwm .DNA none = .ok cPwm :=
  init_pm_nonppm_ok_of (by decide) (by decide)

theorem cEvalPre : preSteps cState0 (some cPfm) (some cPpm) (some cPwm) none none =
    (cMid, none) := by
  simp only [preSteps, stepSetPfm, stepSetPpm, stepSetPwm, cState0,
    cEvalInitPfm, cEvalInitPpm, cEvalInitPwm, andThenE,
    stepFillPpmFromPfm, stepFillPwmFromPfm, stepFillPfmFromPpm,
    stepFillPwmFromPpm, stepFillPfmFromPwm, stepFillPpmFromPwm,
    Option.isSome_some, Option.isNone_some, Bool.and_false, Bool.false_and,
    Bool.false_eq_true, if_false]
  rfl

theorem cEvalDead : pwm2ppm cPwm (some cBg) (some (1e-10 : ℝ)) =
    .ok [[(1 : ℝ) / 4 - 1e-10, 1 / 4 - 1e-10, 1 / 4 - 1e-10, 1 / 4 - 1e-10]] := by
  have hcell : (2 : ℝ) ^ ((0 : ℝ) + log2 ((1 : ℝ) / 4)) - (1e-10 : ℝ) =
      1 / 4 - 1e-10 := by
    rw [zero_add, exp2_log2 (by norm_num)]
  have hbgv : bgList cBg 4 = [(1 : ℝ) / 4, 1 / 4, 1 / 4, 1 / 4] := rfl
  have hcells : pwm2ppmCells (defaultPc (some (1e-10 : ℝ))) cBg cPwm =
      [[(1 : ℝ) / 4 - 1e-10, 1 / 4 - 1e-10, 1 / 4 - 1e-10, 1 / 4 - 1e-10]] := by
    simp only [pwm2ppmCells, cPwm, defaultPc, Option.getD_some, List.map_cons,
      List.map_nil, List.length_cons, List.length_nil]
    rw [show ((0 : Nat) + 1 + 1 + 1 + 1) = 4 from rfl, hbgv]
    simp only [List.zipWith_cons_cons, List.zipWith_nil_right, List.zipWith_nil_left,
      hcell]
  unfold pwm2ppm
  simp only [_check_background]
  rw [hcells]
  refine init_pm_ppm_ok_of (by decide) ?_
  intro row hrow
  simp only [List.mem_singleton] at hrow
  subst hrow
  simp only [List.sum_cons, List.sum_nil]
  rw [show ((1 : ℝ) / 4 - 1e-10 + (1 / 4 - 1e-10 + (1 / 4 - 1e-10 + (1 / 4 - 1e-10 + 0))))
      - 1 = -(4e-10) by ring]
  rw [abs_neg, abs_of_nonneg (by norm_num)]
  norm_num

theorem cEvalConsensus :
    _generate_consensus cPpm (alphabetOfType AlphabetType.DNA none) = ['A'] := by
  have hidx : idxmax [(1 : ℝ) / 4, 1 / 4, 1 / 4, 1 / 4] = 0 := by
    simp only [idxmax]
    rw [if_pos]
    intro y hy
    simp only [List.mem_cons, List.not_mem_nil, or_false] at hy
    rcases hy with rfl | rfl | rfl <;> norm_num
  simp only [cPpm, _generate_consensus, List.map_cons, List.map_nil]
  rw [hidx]
  rfl

theorem cEvalCheckBg :
    _check_background (.pmInst AlphabetType.DNA (alphabetOfType AlphabetType.DNA none))
      none = .ok cBg := by
  simp only [_check_background]
  rw [if_pos (by decide : AlphabetType.DNA ∈ NA_ALPHABETS)]
  rfl

theorem cEvalFin : finalize cMid = (cFinal, none) := by
  simp only [finalize]
  rw [show cMid.ppm = some cPpm from rfl]
  simp only []
  rw [if_pos (show cMid.alphabet_type ∈ stdTypes by decide)]
  rw [show cMid.alphabet_type = AlphabetType.DNA from rfl,
    show cMid.alphabet = (none : Option (List Char)) from rfl]
  rw [cEvalCheckBg]
  simp only [cEvalConsensus]
  rw [show cMid.pwm = some cPwm from rfl]
  simp only []
  rw [show cMid.pseudocount = (1e-10 : ℝ) from rfl]
  rw [cEvalDead]
  rfl

theorem cRunEval : completeUpdatePm cState0 (some cPfm) (some cPpm) (some cPwm)
    none none = (cFinal, none) := by
  unfold completeUpdatePm
  rw [cEvalPre]
  show finalize cMid = (cFinal, none)
  exact cEvalFin

/-- Witness for C1 on the concrete successful reconciliation run. -/
theorem C1_ic_general_witness :
    completeUpdatePm cState0 (some cPfm) (some cPpm) (some cPwm) none none =
      (cFinal, none) ∧
    cFinal.ic = some (List.zipWith (fun pr wr =>
      (List.zipWith (fun a b => a * b) pr wr).sum) cPpm cPwm) :=
  ⟨cRunEval, C1_ic_general cState0 cFinal (some cPfm) (some cPpm) (some cPwm)
    none none cPpm cPwm cRunEval rfl rfl⟩

/-- Witness for C9's universally quantified ungapped half on the concrete
successful DNA run. -/
theorem C9_weight_witness :
    completeUpdatePm cState0 (some cPfm) (some cPpm) (some cPwm) none none =
      (cFinal, none) ∧
    (cFinal.alphabet_type ∈ stdTypes) ∧
    cFinal.width = some cPpm.length ∧
    cFinal.weight = some (List.replicate cPpm.length (1 : ℝ)) := by
  have h := C9_weight.1 cState0 cFinal (some cPfm) (some cPpm) (some cPwm)
    none none cPpm cRunEval rfl
  exact ⟨cRunEval, h.1, h.2.1, h.2.2⟩

/-- Evaluation of `_init_pm` on a row that does not sum to 1, submitted as a
probability matrix: the normalization check rejects it. -/
theorem cEvalInitBadPpm :
    _init_pm [[(1 : ℝ), 1, 1, 1]] .ppm .DNA none = .error .normErr := by
  have hcols : colsOf [[(1 : ℝ), 1, 1, 1]] = (alphabetOfType .DNA none).length := by
    decide
  have hnac : ¬ allcloseOne [[(1 : ℝ), 1, 1, 1]] := by
    intro hac
    have := hac [(1 : ℝ), 1, 1, 1] (by simp)
    simp only [List.sum_cons, List.sum_nil] at this
    rw [show ((1 : ℝ) + (1 + (1 + (1 + 0)))) - 1 = 3 by ring] at this
    rw [abs_of_nonneg (by norm_num)] at this
    norm_num at this
  simp [_init_pm, hcols, hnac]

/-- Witness for the amended C5 on a concrete first-step failure: a lone
invalid PPM leaves a fresh state untouched. -/
theorem C5_first_failure_untouched_witness :
    _init_pm [[(1 : ℝ), 1, 1, 1]] .ppm cState0.alphabet_type cState0.alphabet =
      .error .normErr ∧
    completeUpdatePm cState0 none (some [[(1 : ℝ), 1, 1, 1]]) none none none =
      (cState0, some .normErr) :=
  ⟨cEvalInitBadPpm,
    (C5_first_failure_untouched cState0 none none).2 [[(1 : ℝ), 1, 1, 1]] none
      .normErr cEvalInitBadPpm⟩

/-- Evaluation of `_init_pm` on a valid 1-by-4 frequency matrix. -/
theorem cEvalInitBadRunPfm :
    _init_pm [[(2 : ℝ), 1, 1, 1]] .pfm .DNA none = .ok [[(2 : ℝ), 1, 1, 1]] :=
  init_pm_nonppm_ok_of (by decide) (by decide)

/-- Counterexample to C5 as stated: starting from the fully reconciled state
`cFinal`, a reconciliation call supplying a VALID new PFM together with an
INVALID PPM (rows not summing to 1) raises the normalization error only after
the PFM slot has already been overwritten — the failed call leaves the state
changed, so reconciliation is not all-or-nothing. -/
theorem C5_counterexample :
    (completeUpdatePm cFinal (some [[(2 : ℝ), 1, 1, 1]]) (some [[(1 : ℝ), 1, 1, 1]])
        none none none).2 = some .normErr ∧
    (completeUpdatePm cFinal (some [[(2 : ℝ), 1, 1, 1]]) (some [[(1 : ℝ), 1, 1, 1]])
        none none none).1 ≠ cFinal := by
  have hrun : completeUpdatePm cFinal (some [[(2 : ℝ), 1, 1, 1]])
      (some [[(1 : ℝ), 1, 1, 1]]) none none none =
      ({ cFinal with pfm := some [[(2 : ℝ), 1, 1, 1]] }, some .normErr) := by
    simp only [completeUpdatePm, preSteps, stepSetPfm, stepSetPpm, stepSetPwm, cFinal,
      cEvalInitBadRunPfm, cEvalInitBadPpm, andThenE,
      stepFillPpmFromPfm, stepFillPwmFromPfm, stepFillPfmFromPpm,
      stepFillPwmFromPpm, stepFillPfmFromPwm, stepFillPpmFromPwm]
  rw [hrun]
  constructor
  · rfl
  · intro hcontra
    have hpf := congrArg CState.pfm hcontra
    simp only [cFinal, cPfm] at hpf
    simp only [Option.some.injEq, List.cons.injEq] at hpf
    norm_num at hpf

end SeqLogo
